import Mathlib

/-!
Verification of the BIP21 URI serializer (`src/ser.rs` of `bitcoin_uri`).

Shallow embedding conventions:
* Text is modelled at the byte level: a Rust `&str` or `[u8]` becomes a
  `List Nat` of its bytes (UTF-8 bytes for strings).  Opaque collaborator
  types (the address, the amount) are modelled by the bytes their `Display`
  implementation writes.
* A `fmt::Write` sink is modelled by the list of bytes written so far.
* The `EqSignChecker` panic is modelled by the `RResult.panicked` outcome,
  carrying the panic message; a normal completion is `RResult.ok`.
* The crate `percent_encoding_rfc3986` is embedded byte for byte:
  `percent_encode` maps every byte in the `AsciiSet` (or any byte >= 0x80)
  to a percent escape with uppercase hex digits, and `percent_decode` maps
  a `%` followed by two hex digits (either case) back to the byte.
-/

namespace BitcoinUri

/-- Is `b` an ASCII alphanumeric byte (`A-Z`, `a-z`, `0-9`)? -/
def isAsciiAlphanumeric (b : Nat) : Bool :=
  (48 ≤ b && b ≤ 57) || (65 ≤ b && b ≤ 90) || (97 ≤ b && b ≤ 122)

/-- The bytes removed from `NON_ALPHANUMERIC` by the chain of `.remove` calls
building `ASCII_SET` in `ser.rs`:
`- . _ ~ ! $ ' ( ) * + , ; : @ / ?` (in source order). -/
def asciiSetRemoved : List Nat :=
  [45, 46, 95, 126, 33, 36, 39, 40, 41, 42, 43, 44, 59, 58, 64, 47, 63]

/-- Membership in `ASCII_SET` (`percent_encoding_rfc3986::AsciiSet` covers only
ASCII bytes): an ASCII byte is in the set iff it is non-alphanumeric and was
not removed. -/
def asciiSetContains (b : Nat) : Bool :=
  b < 128 && !isAsciiAlphanumeric b && !(asciiSetRemoved.contains b)

/-- Does `percent_encode` with `ASCII_SET` encode byte `b`?  The crate always
encodes non-ASCII bytes and otherwise consults the set. -/
def mustEncode (b : Nat) : Bool :=
  128 ≤ b || asciiSetContains b

/-- Uppercase hex digit byte for a nibble (`0-9` then `A-F`), as emitted by the
crate's escape formatter. -/
def hexDigit (n : Nat) : Nat :=
  if n < 10 then 48 + n else 55 + n

/-- Encoding of a single byte: an escape `%XX` when the policy requires it,
the byte itself otherwise. -/
def percentEncodeByte (b : Nat) : List Nat :=
  if mustEncode b then [37, hexDigit (b / 16), hexDigit (b % 16)] else [b]

/-- Bytes written by `percent_encode(bs, &ASCII_SET)` (and by
`utf8_percent_encode` on a string with these UTF-8 bytes). -/
def percentEncode (bs : List Nat) : List Nat :=
  bs.flatMap percentEncodeByte

/-- Value of a hex digit byte, accepting both cases, as the crate's decoder
does. -/
def hexVal (b : Nat) : Option Nat :=
  if 48 ≤ b && b ≤ 57 then some (b - 48)
  else if 65 ≤ b && b ≤ 70 then some (b - 55)
  else if 97 ≤ b && b ≤ 102 then some (b - 87)
  else none

/-- Standard percent-decoder (`percent_encoding_rfc3986::percent_decode`):
`%` followed by two hex digits decodes to a byte; any other byte, including a
`%` not followed by two hex digits, passes through. -/
def percentDecode : List Nat → List Nat
  | [] => []
  | b :: rest =>
    if b = 37 then
      match rest with
      | h :: l :: rest2 =>
        match hexVal h, hexVal l with
        | some hv, some lv => (16 * hv + lv) :: percentDecode rest2
        | _, _ => 37 :: percentDecode (h :: l :: rest2)
      | [h] => [37, h]
      | [] => [37]
    else b :: percentDecode rest

/-- `ParamInner` from the library: the three representations of an encodable
parameter.  `EncodedBorrowed` holds already-percent-encoded source bytes (the
lazily-decoding view is embedded by keeping the encoded bytes and decoding on
render, as `<Cow<[u8]>>::from(decoder)` does). -/
inductive ParamInner where
  | EncodedBorrowed (source : List Nat)
  | UnencodedBytes (bytes : List Nat)
  | UnencodedString (s : List Nat)
deriving DecidableEq, Repr

/-- The decoded (raw) content of a parameter: what its rendering encodes. -/
def ParamInner.raw : ParamInner → List Nat
  | .EncodedBorrowed source => percentDecode source
  | .UnencodedBytes bytes => bytes
  | .UnencodedString s => s

/-- Bytes of `DisplayParam`: each representation is percent-encoded on output
(`EncodedBorrowed` is first decoded, then re-encoded). -/
def ParamInner.render : ParamInner → List Nat
  | .EncodedBorrowed source => percentEncode (percentDecode source)
  | .UnencodedBytes bytes => percentEncode bytes
  | .UnencodedString s => percentEncode s

/-- The source bytes a parameter holds (for `EncodedBorrowed`, the
still-encoded borrowed bytes). -/
def ParamInner.srcBytes : ParamInner → List Nat
  | .EncodedBorrowed source => source
  | .UnencodedBytes bytes => bytes
  | .UnencodedString s => s

/-- Is `b` an uppercase hex digit byte (`0-9`, `A-F`)? -/
def isUpperHexByte (b : Nat) : Bool :=
  (48 ≤ b && b ≤ 57) || (65 ≤ b && b ≤ 70)

/-- Spec-side predicate: the byte list is fully percent-encoded under the
Character-Set Policy, i.e. it is a sequence of blocks, each either a byte the
policy leaves unencoded or a `%` escape with two uppercase hex digits. -/
def fullyEncoded : List Nat → Bool
  | [] => true
  | b :: rest =>
    if b = 37 then
      match rest with
      | h :: l :: rest2 => isUpperHexByte h && isUpperHexByte l && fullyEncoded rest2
      | _ => false
    else !(mustEncode b) && fullyEncoded rest

/-- The sink plus the `no_params` flag threaded through `fmt` in `ser.rs`:
`out` is everything written to the underlying formatter so far. -/
structure RenderState where
  out : List Nat
  noParams : Bool
deriving DecidableEq, Repr

/-- Outcome of a (sub)render: normal completion, or the `EqSignChecker` panic
with its message and the sink content at the moment of the panic. -/
inductive RResult where
  | ok (st : RenderState)
  | panicked (msg : List Nat) (st : RenderState)
deriving DecidableEq, Repr

/-- Sequencing of render steps: a panic aborts everything after it. -/
def RResult.bind (r : RResult) (f : RenderState → RResult) : RResult :=
  match r with
  | .ok st => f st
  | .panicked m st => .panicked m st

/-- The separator `write_param` emits: `?` for the first field, `&` after. -/
def sepByte (noParams : Bool) : Nat :=
  if noParams then 63 else 38

/-- The panic message of `EqSignChecker`:
`key '<key>' contains equal sign` (bytes). -/
def eqSignPanicMsg (key : List Nat) : List Nat :=
  [107, 101, 121, 32, 39] ++ key ++
    [39, 32, 99, 111, 110, 116, 97, 105, 110, 115, 32, 101, 113, 117, 97,
     108, 32, 115, 105, 103, 110]

/-- `write_param` from `ser.rs`.  `value` is the already-rendered value text
(the caller wraps it in `DisplayParam` or `DisplayEncoder`).  The separator is
written through `EqSignChecker` first (it contains no `=`), then the key: if
the key contains `=` the checker panics before the `=` separator or any value
byte reaches the sink, and before `no_params` is updated. -/
def write_param (key value : List Nat) (st : RenderState) : RResult :=
  if key.contains 61 then
    .panicked (eqSignPanicMsg key) ⟨st.out ++ [sepByte st.noParams], st.noParams⟩
  else
    .ok ⟨st.out ++ [sepByte st.noParams] ++ key ++ [61] ++ value, false⟩

/-- `maybe_write_param`: writes `key=DisplayParam(value)` when present. -/
def maybe_write_param (key : List Nat) (value : Option ParamInner)
    (st : RenderState) : RResult :=
  match value with
  | some p => write_param key p.render st
  | none => .ok st

/-- `maybe_display_param`: writes `key=DisplayEncoder(value)` when present
(`value` is the display text of the wrapped value, e.g. the amount). -/
def maybe_display_param (key : List Nat) (value : Option (List Nat))
    (st : RenderState) : RResult :=
  match value with
  | some v => write_param key (percentEncode v) st
  | none => .ok st

/-- The `for` loop over `self.extras.serialize_params()`: each value goes
through `DisplayEncoder`, i.e. the percent-encoding writer. -/
def writeExtras : List (List Nat × List Nat) → RenderState → RResult
  | [], st => .ok st
  | (k, v) :: rest, st => (write_param k (percentEncode v) st).bind (writeExtras rest)

/-- Bytes of `"bitcoin:"`. -/
def schemeBytes : List Nat :=
  [98, 105, 116, 99, 111, 105, 110, 58]

/-- Bytes of `"amount"`, `"label"`, `"message"`. -/
def amountKey : List Nat := [97, 109, 111, 117, 110, 116]

/-- Bytes of `"label"`. -/
def labelKey : List Nat := [108, 97, 98, 101, 108]

/-- Bytes of `"message"`. -/
def messageKey : List Nat := [109, 101, 115, 115, 97, 103, 101]

/-- The `Uri` aggregate, with its opaque collaborators modelled by their
display bytes: `address` and `addressAlt` are the address display text in
normal and alternate (`{:#}`) mode, `amount` is
`amount.display_in(Denomination::Bitcoin)`, and `extras` is the ordered
sequence of key-value display texts its `SerializeParams` iterator yields. -/
structure Uri where
  address : List Nat
  addressAlt : List Nat
  amount : Option (List Nat)
  label : Option ParamInner
  message : Option ParamInner
  extras : List (List Nat × List Nat)
deriving DecidableEq, Repr

/-- The address display text selected by the mode flag. -/
def Uri.addrDisplay (u : Uri) (alternate : Bool) : List Nat :=
  if alternate then u.addressAlt else u.address

/-- The `fmt::Display` implementation for `Uri`: scheme and address, then
amount, label, message, then extras, all threaded through `no_params`. -/
def Uri.render (u : Uri) (alternate : Bool) : RResult :=
  (maybe_display_param amountKey u.amount
      ⟨schemeBytes ++ u.addrDisplay alternate, true⟩).bind fun st1 =>
  (maybe_write_param labelKey u.label st1).bind fun st2 =>
  (maybe_write_param messageKey u.message st2).bind fun st3 =>
  writeExtras u.extras st3

/-- The sink content after rendering, whether or not the render panicked. -/
def Uri.renderOut (u : Uri) (alternate : Bool) : List Nat :=
  match u.render alternate with
  | .ok st => st.out
  | .panicked _ st => st.out

/-- The panic outcome of a render: `some msg` if it panicked. -/
def Uri.renderPanic (u : Uri) (alternate : Bool) : Option (List Nat) :=
  match u.render alternate with
  | .ok _ => none
  | .panicked msg _ => some msg

/-- Spec-side canonical list of present fields in render order: amount, label,
message, then the extras pairs verbatim; each paired with its rendered
(percent-encoded) value text. -/
def Uri.presentFields (u : Uri) : List (List Nat × List Nat) :=
  (match u.amount with
   | some a => [(amountKey, percentEncode a)]
   | none => []) ++
  (match u.label with
   | some p => [(labelKey, p.render)]
   | none => []) ++
  (match u.message with
   | some p => [(messageKey, p.render)]
   | none => []) ++
  u.extras.map (fun kv => (kv.1, percentEncode kv.2))

/-- The write chunks one field list produces: separator, key, `=`, rendered
value, for each field in order, the separator depending on whether any field
was written before. -/
def paramChunks : List (List Nat × List Nat) → Bool → List (List Nat)
  | [], _ => []
  | (k, v) :: rest, noParams =>
    [sepByte noParams] :: k :: [61] :: v :: paramChunks rest false

/-- The sequence of chunks the render hands to the underlying sink, in order
(`"bitcoin:"`, the address text, then each field's separator, key, `=`,
value). -/
def Uri.writes (u : Uri) (alternate : Bool) : List (List Nat) :=
  schemeBytes :: u.addrDisplay alternate :: paramChunks u.presentFields true

/-- Running a chunk sequence against a fallible sink: `p i` says whether the
`i`-th write call succeeds.  A failing write appends nothing and its
`fmt::Error` is propagated immediately by the `?` operator, so no later chunk
is attempted.  The payload of either outcome is the sink content. -/
def runSink : List (List Nat) → (Nat → Bool) → Nat → List Nat →
    Except (List Nat) (List Nat)
  | [], _, _, acc => .ok acc
  | c :: rest, p, i, acc =>
    if p i then runSink rest p (i + 1) (acc ++ c) else .error acc

/-- The render of the query-parameter part alone, from an empty sink. -/
def Uri.paramsRun (u : Uri) : RResult :=
  (maybe_display_param amountKey u.amount ⟨[], true⟩).bind fun st1 =>
  (maybe_write_param labelKey u.label st1).bind fun st2 =>
  (maybe_write_param messageKey u.message st2).bind fun st3 =>
  writeExtras u.extras st3

/-- Sink content of the query-parameter part alone. -/
def Uri.paramsOut (u : Uri) : List Nat :=
  match u.paramsRun with
  | .ok st => st.out
  | .panicked _ st => st.out

/-- Panic outcome of the query-parameter part alone. -/
def Uri.paramsPanic (u : Uri) : Option (List Nat) :=
  match u.paramsRun with
  | .ok _ => none
  | .panicked msg _ => some msg

/-- Prefixing the sink content of an outcome (proof-side helper). -/
def RResult.prepend (pre : List Nat) : RResult → RResult
  | .ok st => .ok ⟨pre ++ st.out, st.noParams⟩
  | .panicked m st => .panicked m ⟨pre ++ st.out, st.noParams⟩

/-- Writing a list of already-rendered fields in order (proof-side helper:
`writeExtras` and the `maybe_*` writers are instances of it). -/
def runFields : List (List Nat × List Nat) → RenderState → RResult
  | [], st => .ok st
  | (k, v) :: rest, st => (write_param k v st).bind (runFields rest)

/-- Spec-side predicate: ASCII letter. -/
def isAsciiLetter (b : Nat) : Bool :=
  (65 ≤ b && b ≤ 90) || (97 ≤ b && b ≤ 122)

/-- Spec-side predicate: ASCII digit. -/
def isAsciiDigit (b : Nat) : Bool :=
  48 ≤ b && b ≤ 57

/-- Spec-side exemption set, transcribed from the specification sentence:
the bytes of `- . _ ~ ! $ ' ( ) * + , ; : @ / ?`. -/
def specExemptions : List Nat :=
  [45, 46, 95, 126, 33, 36, 39, 40, 41, 42, 43, 44, 59, 58, 64, 47, 63]

/-- Uri with address `A` and label `?` (one present field whose encoded value
legitimately contains a literal `?`, which the policy exempts). -/
def uriQuestionLabel : Uri :=
  ⟨[65], [65], none, some (.UnencodedString [63]), none, []⟩

/-- Uri with address `A`, amount text `0.01`, label `L` and one extras pair
`f=b` (three present fields). -/
def uriThreeFields : Uri :=
  ⟨[65], [65], some [48, 46, 48, 49], some (.UnencodedString [76]), none,
    [([102], [98])]⟩

/-- Uri with address `A` (alternate `B`) and only an amount field `1`. -/
def uriAmountOnly : Uri :=
  ⟨[65], [66], some [49], none, none, []⟩

/-! ### Helper lemmas about the encoding primitives -/

theorem hexDigit_ne_63 (n : Nat) : hexDigit n ≠ 63 := by
  unfold hexDigit; split <;> omega

theorem hexDigit_ne_38 (n : Nat) : hexDigit n ≠ 38 := by
  unfold hexDigit; split <;> omega

theorem hexDigit_ne_61 (n : Nat) : hexDigit n ≠ 61 := by
  unfold hexDigit; split <;> omega

theorem isUpperHexByte_hexDigit (n : Nat) (h : n < 16) :
    isUpperHexByte (hexDigit n) = true := by
  interval_cases n <;> decide

theorem hexVal_hexDigit (n : Nat) (h : n < 16) : hexVal (hexDigit n) = some n := by
  interval_cases n <;> decide

theorem hexVal_lt (b v : Nat) (h : hexVal b = some v) : v < 16 := by
  unfold hexVal at h
  repeat' split at h
  all_goals simp_all
  all_goals omega

/-- Counting a byte that the policy never encodes and that no escape can
contain is transparent through the encoder. -/
theorem count_percentEncode_exempt (c : Nat) (hc : mustEncode c = false)
    (h37 : c ≠ 37) (hhex : ∀ n, hexDigit n ≠ c) (bs : List Nat) :
    (percentEncode bs).count c = bs.count c := by
  induction bs with
  | nil => rfl
  | cons b t ih =>
    simp only [percentEncode, List.flatMap_cons] at *
    rw [List.count_append, ih]
    unfold percentEncodeByte
    by_cases hm : mustEncode b = true
    · have hb : b ≠ c := fun h => by subst h; rw [hm] at hc; cases hc
      simp [hm, List.count_cons, hb]
      exact ⟨⟨hhex (b % 16), hhex (b / 16)⟩, fun h => h37 h.symm⟩
    · simp [hm, List.count_cons, Nat.add_comm]

/-- A byte the policy encodes, other than `%` and outside the hex-digit
range, never appears in encoder output. -/
theorem count_percentEncode_encoded (c : Nat) (hc : mustEncode c = true)
    (h37 : c ≠ 37) (hhex : ∀ n, hexDigit n ≠ c) (bs : List Nat) :
    (percentEncode bs).count c = 0 := by
  induction bs with
  | nil => rfl
  | cons b t ih =>
    simp only [percentEncode, List.flatMap_cons] at *
    rw [List.count_append, ih]
    unfold percentEncodeByte
    by_cases hm : mustEncode b = true
    · simp [hm, List.count_cons]
      exact ⟨⟨hhex (b % 16), hhex (b / 16)⟩, fun h => h37 h.symm⟩
    · have hb : b ≠ c := fun h => hm (by rw [h]; exact hc)
      simp [hm, List.count_cons, hb]

theorem percentEncode_nil : percentEncode [] = [] := rfl

theorem percentEncode_cons (b : Nat) (t : List Nat) :
    percentEncode (b :: t) = percentEncodeByte b ++ percentEncode t := rfl

theorem count_63_percentEncode (bs : List Nat) :
    (percentEncode bs).count 63 = bs.count 63 :=
  count_percentEncode_exempt 63 (by decide) (by decide) hexDigit_ne_63 bs

theorem count_38_percentEncode (bs : List Nat) :
    (percentEncode bs).count 38 = 0 :=
  count_percentEncode_encoded 38 (by decide) (by decide) hexDigit_ne_38 bs

theorem count_61_percentEncode (bs : List Nat) :
    (percentEncode bs).count 61 = 0 :=
  count_percentEncode_encoded 61 (by decide) (by decide) hexDigit_ne_61 bs

theorem not_mem_38_percentEncode (bs : List Nat) : 38 ∉ percentEncode bs :=
  List.count_eq_zero.mp (count_38_percentEncode bs)

theorem not_mem_61_percentEncode (bs : List Nat) : 61 ∉ percentEncode bs :=
  List.count_eq_zero.mp (count_61_percentEncode bs)

/-- Decoding inverts encoding (for byte values, i.e. naturals below 256). -/
theorem percentDecode_percentEncode (bs : List Nat) (hb : ∀ b ∈ bs, b < 256) :
    percentDecode (percentEncode bs) = bs := by
  induction bs with
  | nil => rfl
  | cons b t ih =>
    have hbt : ∀ x ∈ t, x < 256 := fun x hx => hb x (List.mem_cons_of_mem _ hx)
    have hb256 : b < 256 := hb b (List.mem_cons_self _ _)
    rw [percentEncode_cons]
    unfold percentEncodeByte
    by_cases hm : mustEncode b = true
    · have h1 : b / 16 < 16 := by omega
      have h2 : b % 16 < 16 := by omega
      simp only [hm, if_true, List.cons_append, List.nil_append]
      calc percentDecode (37 :: hexDigit (b / 16) :: hexDigit (b % 16) :: percentEncode t)
          = (16 * (b / 16) + b % 16) :: percentDecode (percentEncode t) := by
            simp [percentDecode, hexVal_hexDigit _ h1, hexVal_hexDigit _ h2]
        _ = b :: t := by rw [ih hbt]; congr 1; omega
    · have hb37 : b ≠ 37 := fun h => by subst h; exact hm (by decide)
      rw [if_neg hm]
      simp only [List.cons_append, List.nil_append]
      rw [percentDecode.eq_def]
      simp [hb37, ih hbt]

/-- Encoder output is fully percent-encoded under the policy. -/
theorem fullyEncoded_percentEncode (bs : List Nat) (hb : ∀ b ∈ bs, b < 256) :
    fullyEncoded (percentEncode bs) = true := by
  induction bs with
  | nil => rfl
  | cons b t ih =>
    have hbt : ∀ x ∈ t, x < 256 := fun x hx => hb x (List.mem_cons_of_mem _ hx)
    have hb256 : b < 256 := hb b (List.mem_cons_self _ _)
    rw [percentEncode_cons]
    unfold percentEncodeByte
    by_cases hm : mustEncode b = true
    · have h1 : b / 16 < 16 := by omega
      have h2 : b % 16 < 16 := by omega
      simp only [hm, if_true, List.cons_append, List.nil_append]
      simp [fullyEncoded, isUpperHexByte_hexDigit _ h1, isUpperHexByte_hexDigit _ h2,
        ih hbt]
    · have hb37 : b ≠ 37 := fun h => by subst h; exact hm (by decide)
      have hmf : mustEncode b = false := by revert hm; cases mustEncode b <;> simp
      rw [if_neg hm]
      simp only [List.cons_append, List.nil_append]
      rw [fullyEncoded.eq_def]
      simp [hb37, ih hbt, hmf]

/-- The decoder produces byte values when given byte values. -/
theorem percentDecode_lt (bs : List Nat) :
    (∀ b ∈ bs, b < 256) → ∀ b ∈ percentDecode bs, b < 256 := by
  induction bs using percentDecode.induct with
  | case1 => intro _ b h; simp [percentDecode] at h
  | case2 h l rest2 hv lv hvl hvh ih =>
    intro hb b hbmem
    rw [show percentDecode (37 :: h :: l :: rest2) = (16 * hv + lv) :: percentDecode rest2
        from by simp [percentDecode, hvl, hvh]] at hbmem
    rcases List.mem_cons.mp hbmem with rfl | hmem
    · have := hexVal_lt _ _ hvh
      have := hexVal_lt _ _ hvl
      omega
    · exact ih (fun y hy => hb y (by simp [hy])) b hmem
  | case3 h l rest2 hinv ih =>
    intro hb b hbmem
    have hrw : percentDecode (37 :: h :: l :: rest2) = 37 :: percentDecode (h :: l :: rest2) := by
      cases eh : hexVal h with
      | some hv =>
        cases el : hexVal l with
        | some lv => exact (hinv hv lv eh el).elim
        | none => simp [percentDecode, eh, el]
      | none => simp [percentDecode, eh]
    rw [hrw] at hbmem
    rcases List.mem_cons.mp hbmem with rfl | hmem
    · omega
    · exact ih (fun y hy => hb y (by simp at hy ⊢; tauto)) b hmem
  | case4 h =>
    intro hb b hbmem
    simp [percentDecode] at hbmem
    rcases hbmem with rfl | rfl
    · omega
    · exact hb b (by simp)
  | case5 =>
    intro hb b hbmem
    simp [percentDecode] at hbmem
    omega
  | case6 b rest hb37 ih =>
    intro hb x hx
    rw [show percentDecode (b :: rest) = b :: percentDecode rest
        from by rw [percentDecode.eq_def]; simp [hb37]] at hx
    rcases List.mem_cons.mp hx with rfl | hmem
    · exact hb x (by simp)
    · exact ih (fun y hy => hb y (by simp [hy])) x hmem

/-! ### Helper lemmas about the render machinery -/

theorem RResult.bind_assoc (r : RResult) (f g : RenderState → RResult) :
    (r.bind f).bind g = r.bind (fun st => (f st).bind g) := by
  cases r <;> rfl

theorem RResult.bind_congr (r : RResult) (f g : RenderState → RResult)
    (h : ∀ st, f st = g st) : r.bind f = r.bind g := by
  cases r <;> simp [RResult.bind, h]

theorem runFields_nil (st : RenderState) : runFields [] st = .ok st := rfl

theorem write_param_shift (k v pre o : List Nat) (np : Bool) :
    write_param k v ⟨pre ++ o, np⟩ = .prepend pre (write_param k v ⟨o, np⟩) := by
  unfold write_param
  split <;> simp [RResult.prepend, List.append_assoc]

theorem runFields_shift (fs : List (List Nat × List Nat)) (pre o : List Nat) (np : Bool) :
    runFields fs ⟨pre ++ o, np⟩ = .prepend pre (runFields fs ⟨o, np⟩) := by
  induction fs generalizing o np with
  | nil => rfl
  | cons kv rest ih =>
    obtain ⟨k, v⟩ := kv
    show (write_param k v ⟨pre ++ o, np⟩).bind (runFields rest)
      = RResult.prepend pre ((write_param k v ⟨o, np⟩).bind (runFields rest))
    rw [write_param_shift]
    cases write_param k v ⟨o, np⟩ with
    | ok st =>
      show runFields rest ⟨pre ++ st.out, st.noParams⟩
        = RResult.prepend pre (runFields rest ⟨st.out, st.noParams⟩)
      exact ih st.out st.noParams
    | panicked m st => rfl

theorem maybe_display_param_eq (key : List Nat) (v : Option (List Nat)) (st : RenderState) :
    maybe_display_param key v st =
      runFields (match v with
        | some a => [(key, percentEncode a)]
        | none => []) st := by
  cases v with
  | none => rfl
  | some a =>
    show write_param key (percentEncode a) st
      = (write_param key (percentEncode a) st).bind (runFields [])
    cases write_param key (percentEncode a) st <;> rfl

theorem maybe_write_param_eq (key : List Nat) (v : Option ParamInner) (st : RenderState) :
    maybe_write_param key v st =
      runFields (match v with
        | some p => [(key, p.render)]
        | none => []) st := by
  cases v with
  | none => rfl
  | some p =>
    show write_param key p.render st = (write_param key p.render st).bind (runFields [])
    cases write_param key p.render st <;> rfl

theorem writeExtras_eq_runFields (ps : List (List Nat × List Nat)) (st : RenderState) :
    writeExtras ps st = runFields (ps.map fun kv => (kv.1, percentEncode kv.2)) st := by
  induction ps generalizing st with
  | nil => rfl
  | cons kv rest ih =>
    obtain ⟨k, v⟩ := kv
    show (write_param k (percentEncode v) st).bind (writeExtras rest)
      = (write_param k (percentEncode v) st).bind (runFields _)
    exact RResult.bind_congr _ _ _ fun st1 => ih st1

theorem runFields_append (f1 f2 : List (List Nat × List Nat)) (st : RenderState) :
    runFields (f1 ++ f2) st = (runFields f1 st).bind (runFields f2) := by
  induction f1 generalizing st with
  | nil => cases runFields f2 st <;> rfl
  | cons kv rest ih =>
    obtain ⟨k, v⟩ := kv
    show (write_param k v st).bind (runFields (rest ++ f2))
      = ((write_param k v st).bind (runFields rest)).bind (runFields f2)
    rw [RResult.bind_assoc]
    exact RResult.bind_congr _ _ _ fun st1 => ih st1

/-- The sequential field-writing chain of the `Display` implementation equals
the canonical field-list processor on `presentFields`, from any state. -/
theorem renderChain (u : Uri) (st : RenderState) :
    ((maybe_display_param amountKey u.amount st).bind fun st1 =>
     (maybe_write_param labelKey u.label st1).bind fun st2 =>
     (maybe_write_param messageKey u.message st2).bind fun st3 =>
     writeExtras u.extras st3)
      = runFields u.presentFields st := by
  rw [show u.presentFields
      = (match u.amount with
         | some a => [(amountKey, percentEncode a)]
         | none => []) ++
        ((match u.label with
         | some p => [(labelKey, p.render)]
         | none => []) ++
        ((match u.message with
         | some p => [(messageKey, p.render)]
         | none => []) ++
        u.extras.map (fun kv => (kv.1, percentEncode kv.2))))
      from by simp [Uri.presentFields, List.append_assoc]]
  rw [runFields_append, ← maybe_display_param_eq]
  refine RResult.bind_congr _ _ _ fun st1 => ?_
  rw [runFields_append, ← maybe_write_param_eq]
  refine RResult.bind_congr _ _ _ fun st2 => ?_
  rw [runFields_append, ← maybe_write_param_eq]
  refine RResult.bind_congr _ _ _ fun st3 => ?_
  exact writeExtras_eq_runFields u.extras st3

theorem paramsRun_eq (u : Uri) : u.paramsRun = runFields u.presentFields ⟨[], true⟩ :=
  renderChain u _

theorem render_eq (u : Uri) (alternate : Bool) :
    u.render alternate = runFields u.presentFields
      ⟨schemeBytes ++ u.addrDisplay alternate, true⟩ :=
  renderChain u _

/-- Factorization of a full render: scheme and address first, then the
query-parameter part, which does not depend on the mode flag. -/
theorem render_factor (u : Uri) (alternate : Bool) :
    u.render alternate
      = .prepend (schemeBytes ++ u.addrDisplay alternate) u.paramsRun := by
  rw [render_eq, paramsRun_eq,
    show (⟨schemeBytes ++ u.addrDisplay alternate, true⟩ : RenderState)
      = ⟨(schemeBytes ++ u.addrDisplay alternate) ++ [], true⟩ from by simp,
    runFields_shift]

/-- Writing a list of fields whose keys are free of `=` succeeds and appends
exactly the canonical chunks; afterwards `no_params` is set iff it was set
and no field was written. -/
theorem runFields_ok (fs : List (List Nat × List Nat)) (o : List Nat) (np : Bool)
    (hk : ∀ kv ∈ fs, (kv.1).contains 61 = false) :
    runFields fs ⟨o, np⟩ = .ok ⟨o ++ (paramChunks fs np).flatten, np && fs.isEmpty⟩ := by
  induction fs generalizing o np with
  | nil => simp [runFields, paramChunks]
  | cons kv rest ih =>
    obtain ⟨k, v⟩ := kv
    have hk0 : 61 ∉ k := by simpa using hk (k, v) (by simp)
    have hkrest : ∀ kv ∈ rest, (kv.1).contains 61 = false :=
      fun kv h => hk kv (by simp [h])
    show (write_param k v ⟨o, np⟩).bind (runFields rest) = _
    rw [show write_param k v ⟨o, np⟩
        = .ok ⟨o ++ [sepByte np] ++ k ++ [61] ++ v, false⟩
        from by simp [write_param, hk0]]
    show runFields rest ⟨o ++ [sepByte np] ++ k ++ [61] ++ v, false⟩ = _
    rw [ih _ false hkrest]
    simp [paramChunks, List.append_assoc]

/-- A run against an everywhere-successful sink writes every chunk. -/
theorem runSink_all_ok (cs : List (List Nat)) (p : Nat → Bool) (s : Nat) (acc : List Nat)
    (hp : ∀ i, i < cs.length → p (s + i) = true) :
    runSink cs p s acc = .ok (acc ++ cs.flatten) := by
  induction cs generalizing s acc with
  | nil => simp [runSink]
  | cons c rest ih =>
    have h0 : p s = true := by simpa using hp 0 (by simp)
    show (if p s then runSink rest p (s + 1) (acc ++ c) else .error acc) = _
    rw [if_pos h0, ih (s + 1) (acc ++ c) fun i hi => by
      have := hp (i + 1) (by simp; omega)
      simpa [Nat.add_assoc, Nat.add_comm 1 i] using this]
    simp [List.append_assoc]

/-- A run whose first sink failure is at index `j` stops there: exactly the
chunks before `j` are written, and the failure is propagated as an error. -/
theorem runSink_first_err (cs : List (List Nat)) (p : Nat → Bool) (s : Nat)
    (acc : List Nat) (j : Nat) (hj : j < cs.length) (hfail : p (s + j) = false)
    (hok : ∀ i, i < j → p (s + i) = true) :
    runSink cs p s acc = .error (acc ++ (cs.take j).flatten) := by
  induction cs generalizing s acc j with
  | nil => simp at hj
  | cons c rest ih =>
    cases j with
    | zero =>
      have h0 : p s = false := by simpa using hfail
      show (if p s then runSink rest p (s + 1) (acc ++ c) else .error acc) = _
      rw [if_neg (by simp [h0])]
      simp
    | succ j' =>
      have h0 : p s = true := by simpa using hok 0 (by omega)
      show (if p s then runSink rest p (s + 1) (acc ++ c) else .error acc) = _
      rw [if_pos h0, ih (s + 1) (acc ++ c) j' (by simpa using hj)
        (by have := hfail; simpa [Nat.add_assoc, Nat.add_comm 1 j'] using this)
        (fun i hi => by
          have := hok (i + 1) (by omega)
          simpa [Nat.add_assoc, Nat.add_comm 1 i] using this)]
      simp [List.append_assoc]

/-- Separator counting: under `=`-free, separator-free keys and
separator-free rendered values, the joined chunks of `fs` contain `63`
(`?`) exactly when a first field is written with `no_params` set, and `38`
(`&`) once per remaining field. -/
theorem count_paramChunks (fs : List (List Nat × List Nat)) (np : Bool)
    (hks : ∀ kv ∈ fs, (kv.1).count 63 = 0 ∧ (kv.1).count 38 = 0)
    (hvs : ∀ kv ∈ fs, (kv.2).count 63 = 0 ∧ (kv.2).count 38 = 0) :
    ((paramChunks fs np).flatten.count 63
        = if fs.isEmpty then 0 else if np then 1 else 0) ∧
    ((paramChunks fs np).flatten.count 38
        = if np then fs.length - 1 else fs.length) := by
  induction fs generalizing np with
  | nil => simp [paramChunks]
  | cons kv rest ih =>
    obtain ⟨k, v⟩ := kv
    have hk := hks (k, v) (by simp)
    have hv := hvs (k, v) (by simp)
    have ihrest := ih false (fun kv h => hks kv (by simp [h])) (fun kv h => hvs kv (by simp [h]))
    show ((([sepByte np] ++ (k ++ ([61] ++ (v ++ (paramChunks rest false).flatten)))).count 63 = _) ∧ _)
    constructor
    · rw [List.count_append, List.count_append, List.count_append, List.count_append,
        hk.1, hv.1, ihrest.1]
      cases np <;> simp [sepByte]
    · show (([sepByte np] ++ (k ++ ([61] ++ (v ++ (paramChunks rest false).flatten)))).count 38 = _)
      rw [List.count_append, List.count_append, List.count_append, List.count_append,
        hk.2, hv.2, ihrest.2]
      cases np
      · simp [sepByte]
        omega
      · simp [sepByte]

/-- Every representation renders as the encoding of its decoded content. -/
theorem param_render_eq (p : ParamInner) : p.render = percentEncode p.raw := by
  cases p <;> rfl

/-- Membership structure of the canonical field list. -/
theorem mem_presentFields (u : Uri) (kv : List Nat × List Nat)
    (h : kv ∈ u.presentFields) :
    (∃ a, u.amount = some a ∧ kv = (amountKey, percentEncode a)) ∨
    (∃ p, u.label = some p ∧ kv = (labelKey, p.render)) ∨
    (∃ p, u.message = some p ∧ kv = (messageKey, p.render)) ∨
    (∃ k v, (k, v) ∈ u.extras ∧ kv = (k, percentEncode v)) := by
  unfold Uri.presentFields at h
  rcases List.mem_append.mp h with h1 | hE
  rotate_left
  · right; right; right
    rcases List.mem_map.mp hE with ⟨⟨k, v⟩, hmem, hEq⟩
    exact ⟨k, v, hmem, hEq.symm⟩
  rcases List.mem_append.mp h1 with h2 | hM
  rotate_left
  · right; right; left
    cases hm : u.message with
    | none => rw [hm] at hM; simp at hM
    | some p =>
      rw [hm] at hM
      simp at hM
      exact ⟨p, rfl, by simp [hM]⟩
  rcases List.mem_append.mp h2 with hA | hL
  · left
    cases ha : u.amount with
    | none => rw [ha] at hA; simp at hA
    | some a =>
      rw [ha] at hA
      simp at hA
      exact ⟨a, rfl, by simp [hA]⟩
  · right; left
    cases hl : u.label with
    | none => rw [hl] at hL; simp at hL
    | some p =>
      rw [hl] at hL
      simp at hL
      exact ⟨p, rfl, by simp [hL]⟩

/-- If the extras keys are `=`-free, so is every key of the canonical field
list (the fixed keys `amount`, `label`, `message` contain no `=`). -/
theorem presentFields_keys_eq_free (u : Uri)
    (hextras : ∀ kv ∈ u.extras, (kv.1).contains 61 = false) :
    ∀ kv ∈ u.presentFields, (kv.1).contains 61 = false := by
  intro kv h
  rcases mem_presentFields u kv h with ⟨a, _, rfl⟩ | ⟨p, _, rfl⟩ | ⟨p, _, rfl⟩ |
    ⟨k, v, hm, rfl⟩
  · exact (by decide : amountKey.contains 61 = false)
  · exact (by decide : labelKey.contains 61 = false)
  · exact (by decide : messageKey.contains 61 = false)
  · exact hextras (k, v) hm

/-! ### Claim theorems -/

/-- C1: for every byte, the writer emits it as `%` followed by two uppercase
hex digits iff the byte is not an ASCII letter, not an ASCII digit, and not a
member of the exemption set; every other byte passes through unchanged, and in
particular `&` (38) and `=` (61) are always marked for encoding. -/
theorem c1_charset_policy : ∀ b : Fin 256,
    (mustEncode b.val = true ↔
      ¬(isAsciiLetter b.val = true ∨ isAsciiDigit b.val = true ∨
        b.val ∈ specExemptions)) ∧
    (mustEncode b.val = true →
      percentEncodeByte b.val = [37, hexDigit (b.val / 16), hexDigit (b.val % 16)] ∧
      isUpperHexByte (hexDigit (b.val / 16)) = true ∧
      isUpperHexByte (hexDigit (b.val % 16)) = true) ∧
    (mustEncode b.val = false → percentEncodeByte b.val = [b.val]) ∧
    mustEncode 38 = true ∧ mustEncode 61 = true := by
  set_option maxRecDepth 4000 in decide

/-- C4: a key whose text contains `=` makes `write_param` abort with a panic
whose message embeds the offending key, after only the separator byte reached
the sink (no `=` separator and no value byte was written); a key without `=`
never panics and writes separator, key, `=`, value. -/
theorem c4_eq_sign_guard (key value : List Nat) (st : RenderState) :
    (key.contains 61 = true →
      write_param key value st
        = .panicked (eqSignPanicMsg key)
            ⟨st.out ++ [sepByte st.noParams], st.noParams⟩ ∧
      ∃ pre suf, eqSignPanicMsg key = pre ++ key ++ suf) ∧
    (key.contains 61 = false →
      write_param key value st
        = .ok ⟨st.out ++ [sepByte st.noParams] ++ key ++ [61] ++ value, false⟩) := by
  constructor
  · intro h
    have h' : 61 ∈ key := by simpa using h
    exact ⟨by simp [write_param, h'],
      [107, 101, 121, 32, 39],
      [39, 32, 99, 111, 110, 116, 97, 105, 110, 115, 32, 101, 113, 117, 97,
       108, 32, 115, 105, 103, 110], rfl⟩
  · intro h
    have h' : 61 ∉ key := by simpa using h
    simp [write_param, h']

/-- C4 witness: key `a=b` with value `x` from a fresh sink panics with the key
embedded in the message and only `?` written; key `a` does not panic. -/
theorem c4_witness :
    (write_param [97, 61, 98] [120] ⟨[], true⟩
        = .panicked (eqSignPanicMsg [97, 61, 98]) ⟨[sepByte true], true⟩ ∧
      ∃ pre suf, eqSignPanicMsg [97, 61, 98] = pre ++ [97, 61, 98] ++ suf) ∧
    write_param [97] [120] ⟨[], true⟩ = .ok ⟨[63, 97, 61, 120], false⟩ := by
  refine ⟨by simpa using (c4_eq_sign_guard [97, 61, 98] [120] ⟨[], true⟩).1 (by decide), ?_⟩
  exact Eq.trans ((c4_eq_sign_guard [97] [120] ⟨[], true⟩).2 (by decide)) (by decide)

/-- C5: each of the three representations renders as the percent-encoding of
its decoded content, so the output is fully percent-encoded under the policy
and never contains a raw `&` (38) or `=` (61). -/
theorem c5_param_representations (p : ParamInner)
    (hb : ∀ b ∈ p.srcBytes, b < 256) :
    p.render = percentEncode p.raw ∧
    fullyEncoded p.render = true ∧
    38 ∉ p.render ∧ 61 ∉ p.render := by
  have hraw : ∀ b ∈ p.raw, b < 256 := by
    cases p with
    | EncodedBorrowed s => exact percentDecode_lt s hb
    | UnencodedBytes bs => exact hb
    | UnencodedString s => exact hb
  refine ⟨param_render_eq p, ?_, ?_, ?_⟩
  · rw [param_render_eq]
    exact fullyEncoded_percentEncode _ hraw
  · rw [param_render_eq]
    exact not_mem_38_percentEncode _
  · rw [param_render_eq]
    exact not_mem_61_percentEncode _

/-- C5 witness: the `EncodedBorrowed` view over `%20%3DA` decodes and
re-encodes to a fully encoded form with no raw `&` or `=`. -/
theorem c5_witness :
    ParamInner.render (.EncodedBorrowed [37, 50, 48, 37, 51, 68, 65])
        = percentEncode (ParamInner.raw (.EncodedBorrowed [37, 50, 48, 37, 51, 68, 65])) ∧
    fullyEncoded (ParamInner.render (.EncodedBorrowed [37, 50, 48, 37, 51, 68, 65])) = true ∧
    38 ∉ ParamInner.render (.EncodedBorrowed [37, 50, 48, 37, 51, 68, 65]) ∧
    61 ∉ ParamInner.render (.EncodedBorrowed [37, 50, 48, 37, 51, 68, 65]) :=
  c5_param_representations _ (by decide)

/-- C7: percent-encoding any byte sequence free of `&` (38) and `=` (61),
then applying the standard percent-decoder, is the identity. -/
theorem c7_roundtrip (T : List Nat) (hb : ∀ b ∈ T, b < 256)
    (_h38 : 38 ∉ T) (_h61 : 61 ∉ T) :
    percentDecode (percentEncode T) = T :=
  percentDecode_percentEncode T hb

/-- C7 witness: the UTF-8 bytes of `Hi €` round-trip. -/
theorem c7_witness :
    percentDecode (percentEncode [72, 105, 32, 226, 130, 172])
      = [72, 105, 32, 226, 130, 172] :=
  c7_roundtrip _ (by decide) (by decide) (by decide)

/-- C3: when every extras key is `=`-free (so the render completes), the
output is the scheme, the address, then exactly the canonical chunk sequence
of `presentFields` — amount, label, message in that fixed order, each skipped
without trace when absent, followed by the extras pairs verbatim, with no
sorting and no deduplication. -/
theorem c3_field_order (u : Uri) (alternate : Bool)
    (hextras : ∀ kv ∈ u.extras, (kv.1).contains 61 = false) :
    u.render alternate
      = .ok ⟨schemeBytes ++ u.addrDisplay alternate
              ++ (paramChunks u.presentFields true).flatten,
          u.presentFields.isEmpty⟩ := by
  rw [render_eq,
    runFields_ok u.presentFields _ true (presentFields_keys_eq_free u hextras)]
  simp [List.append_assoc]

/-- C3 witness: three present fields render in the order amount, label,
extras pair. -/
theorem c3_witness :
    uriThreeFields.render false
      = .ok ⟨schemeBytes ++ uriThreeFields.addrDisplay false
              ++ (paramChunks uriThreeFields.presentFields true).flatten,
          uriThreeFields.presentFields.isEmpty⟩ ∧
    uriThreeFields.render false
      = .ok ⟨[98, 105, 116, 99, 111, 105, 110, 58, 65,
              63, 97, 109, 111, 117, 110, 116, 61, 48, 46, 48, 49,
              38, 108, 97, 98, 101, 108, 61, 76,
              38, 102, 61, 98], false⟩ :=
  ⟨c3_field_order uriThreeFields false (by decide),
   Eq.trans (c3_field_order uriThreeFields false (by decide)) (by decide)⟩

/-- C6: the renderer passes every extras value through the percent-encoding
writer: the value text emitted for each pair `(k, v)` is `percentEncode v`,
not `v` itself. -/
theorem c6_extras_values_encoded (pairs : List (List Nat × List Nat))
    (st : RenderState) (hk : ∀ kv ∈ pairs, (kv.1).contains 61 = false) :
    writeExtras pairs st
      = .ok ⟨st.out ++ (paramChunks
            (pairs.map fun kv => (kv.1, percentEncode kv.2)) st.noParams).flatten,
          st.noParams && pairs.isEmpty⟩ := by
  rw [writeExtras_eq_runFields]
  have hk' : ∀ kv ∈ pairs.map (fun kv => (kv.1, percentEncode kv.2)),
      (kv.1).contains 61 = false := by
    intro kv hkv
    rcases List.mem_map.mp hkv with ⟨kv', h1, h2⟩
    subst h2
    exact hk kv' h1
  have hEmpty : (pairs.map (fun kv => (kv.1, percentEncode kv.2))).isEmpty
      = pairs.isEmpty := by
    cases pairs <;> rfl
  calc runFields (pairs.map fun kv => (kv.1, percentEncode kv.2)) st
      = runFields (pairs.map fun kv => (kv.1, percentEncode kv.2))
          ⟨st.out, st.noParams⟩ := rfl
    _ = _ := by rw [runFields_ok _ _ _ hk', hEmpty]

/-- C6 witness: the single extras pair `f= ` (value one space) from a fresh
sink emits `?f=%20`, and the space is not emitted as-is. -/
theorem c6_witness :
    writeExtras [([102], [32])] ⟨[], true⟩
        = .ok ⟨[63, 102, 61, 37, 50, 48], false⟩ ∧
    percentEncode [32] ≠ [32] :=
  ⟨Eq.trans (c6_extras_values_encoded [([102], [32])] ⟨[], true⟩ (by decide))
    (by decide), by decide⟩

/-- C8: with no amount, no label, no message and empty extras, the output is
exactly the scheme prefix followed by the address display text, with nothing
else (in particular no `?` and no `&`). -/
theorem c8_no_fields (u : Uri) (alternate : Bool) (ha : u.amount = none)
    (hl : u.label = none) (hm : u.message = none) (he : u.extras = []) :
    u.render alternate = .ok ⟨schemeBytes ++ u.addrDisplay alternate, true⟩ := by
  rw [render_eq, show u.presentFields = [] from by
    simp [Uri.presentFields, ha, hl, hm, he]]
  rfl

/-- C8 witness: address `ADDR` with no fields renders to `bitcoin:ADDR`. -/
theorem c8_witness :
    Uri.render ⟨[65, 68, 68, 82], [65, 68, 68, 82], none, none, none, []⟩ false
      = .ok ⟨[98, 105, 116, 99, 111, 105, 110, 58, 65, 68, 68, 82], true⟩ :=
  Eq.trans
    (c8_no_fields ⟨[65, 68, 68, 82], [65, 68, 68, 82], none, none, none, []⟩
      false rfl rfl rfl rfl)
    (by decide)

/-- C9: against a fallible sink, a render whose writes all succeed emits the
whole chunk sequence; the first failing write makes the render return an
error immediately, with exactly the chunks before the failure written and no
later chunk attempted (no retries, no partial-success semantics). -/
theorem c9_sink_failures (u : Uri) (alternate : Bool) (p : Nat → Bool) :
    ((∀ i, i < (u.writes alternate).length → p i = true) →
      runSink (u.writes alternate) p 0 [] = .ok (u.writes alternate).flatten) ∧
    (∀ j, j < (u.writes alternate).length → p j = false →
      (∀ i, i < j → p i = true) →
      runSink (u.writes alternate) p 0 []
        = .error ((u.writes alternate).take j).flatten) := by
  constructor
  · intro hp
    have := runSink_all_ok (u.writes alternate) p 0 []
      (fun i hi => by simpa using hp i hi)
    simpa using this
  · intro j hj hf hok
    have := runSink_first_err (u.writes alternate) p 0 [] j hj
      (by simpa using hf)
      (fun i hi => by simpa using hok i hi)
    simpa using this

/-- C9 witness: for the amount-only Uri, a sink failing first at write index
2 (the `?` separator) yields an error with only `bitcoin:A` written; an
always-succeeding sink receives the full output. -/
theorem c9_witness :
    runSink (uriAmountOnly.writes false) (fun i => decide (i ≠ 2)) 0 []
        = .error [98, 105, 116, 99, 111, 105, 110, 58, 65] ∧
    runSink (uriAmountOnly.writes false) (fun _ => true) 0 []
        = .ok [98, 105, 116, 99, 111, 105, 110, 58, 65,
               63, 97, 109, 111, 117, 110, 116, 61, 49] :=
  ⟨Eq.trans
    ((c9_sink_failures uriAmountOnly false (fun i => decide (i ≠ 2))).2 2
      (by decide) (by decide) (by decide))
    rfl,
   Eq.trans
    ((c9_sink_failures uriAmountOnly false (fun _ => true)).1 (by decide))
    rfl⟩

/-- C10: alternate mode changes only the address portion: in both modes the
output is the scheme, then the mode-selected address text, then the same
query-parameter bytes, and the panic outcome is mode-independent. -/
theorem c10_alternate_only_address (u : Uri) (alternate : Bool) :
    u.renderOut alternate
        = schemeBytes ++ u.addrDisplay alternate ++ u.paramsOut ∧
    u.renderPanic alternate = u.paramsPanic := by
  unfold Uri.renderOut Uri.renderPanic Uri.paramsOut Uri.paramsPanic
  rw [render_factor]
  cases u.paramsRun with
  | ok st => simp [RResult.prepend, List.append_assoc]
  | panicked m st => simp [RResult.prepend, List.append_assoc]

/-- C2 counterexample: the Uri with one present field whose value is `?` (a
byte the policy exempts from encoding) renders with two `?` bytes, not
`min(k,1) = 1`: the claim's count of `?` occurrences fails as stated. -/
theorem c2_counterexample :
    uriQuestionLabel.presentFields.length = 1 ∧
    (uriQuestionLabel.renderOut false).count 63
      ≠ min uriQuestionLabel.presentFields.length 1 := by decide

/-- C2 (amended): if the address text contains no `?`/`&`, every extras key
is `=`-free and contains no `?`/`&`, and no field's raw value text contains
`?` (values can contribute a literal `?` because the policy exempts it;
`&` in values is impossible since it is always encoded), then the output of
a render with k present fields contains exactly `min(k,1)` bytes `?` and
exactly `max(k-1,0)` bytes `&`. -/
theorem c2_separator_counts (u : Uri) (alternate : Bool)
    (haddr63 : (u.addrDisplay alternate).count 63 = 0)
    (haddr38 : (u.addrDisplay alternate).count 38 = 0)
    (hamount : ∀ a, u.amount = some a → a.count 63 = 0)
    (hlabel : ∀ p, u.label = some p → (ParamInner.raw p).count 63 = 0)
    (hmessage : ∀ p, u.message = some p → (ParamInner.raw p).count 63 = 0)
    (hextras : ∀ kv ∈ u.extras, (kv.1).contains 61 = false ∧
      (kv.1).count 63 = 0 ∧ (kv.1).count 38 = 0 ∧ (kv.2).count 63 = 0) :
    (u.renderOut alternate).count 63 = min u.presentFields.length 1 ∧
    (u.renderOut alternate).count 38 = u.presentFields.length - 1 := by
  have hkeys : ∀ kv ∈ u.presentFields, (kv.1).contains 61 = false :=
    presentFields_keys_eq_free u (fun kv h => (hextras kv h).1)
  have hks : ∀ kv ∈ u.presentFields, (kv.1).count 63 = 0 ∧ (kv.1).count 38 = 0 := by
    intro kv h
    rcases mem_presentFields u kv h with ⟨a, ha, rfl⟩ | ⟨p, hp, rfl⟩ |
      ⟨p, hp, rfl⟩ | ⟨k, v, hm, rfl⟩
    · exact ⟨(by decide : amountKey.count 63 = 0), (by decide : amountKey.count 38 = 0)⟩
    · exact ⟨(by decide : labelKey.count 63 = 0), (by decide : labelKey.count 38 = 0)⟩
    · exact ⟨(by decide : messageKey.count 63 = 0), (by decide : messageKey.count 38 = 0)⟩
    · exact ⟨(hextras (k, v) hm).2.1, (hextras (k, v) hm).2.2.1⟩
  have hvs : ∀ kv ∈ u.presentFields, (kv.2).count 63 = 0 ∧ (kv.2).count 38 = 0 := by
    intro kv h
    rcases mem_presentFields u kv h with ⟨a, ha, rfl⟩ | ⟨p, hp, rfl⟩ |
      ⟨p, hp, rfl⟩ | ⟨k, v, hm, rfl⟩
    · refine ⟨?_, ?_⟩
      · show (percentEncode a).count 63 = 0
        rw [count_63_percentEncode]
        exact hamount a ha
      · exact count_38_percentEncode a
    · refine ⟨?_, ?_⟩
      · show (p.render).count 63 = 0
        rw [param_render_eq, count_63_percentEncode]
        exact hlabel p hp
      · show (p.render).count 38 = 0
        rw [param_render_eq]
        exact count_38_percentEncode _
    · refine ⟨?_, ?_⟩
      · show (p.render).count 63 = 0
        rw [param_render_eq, count_63_percentEncode]
        exact hmessage p hp
      · show (p.render).count 38 = 0
        rw [param_render_eq]
        exact count_38_percentEncode _
    · refine ⟨?_, ?_⟩
      · show (percentEncode v).count 63 = 0
        rw [count_63_percentEncode]
        exact (hextras (k, v) hm).2.2.2
      · exact count_38_percentEncode v
  have hrender := render_eq u alternate
  rw [runFields_ok u.presentFields (schemeBytes ++ u.addrDisplay alternate) true hkeys]
    at hrender
  have hout : u.renderOut alternate
      = schemeBytes ++ u.addrDisplay alternate
        ++ (paramChunks u.presentFields true).flatten := by
    rw [Uri.renderOut, hrender]
  have hcounts := count_paramChunks u.presentFields true hks hvs
  rw [hout]
  constructor
  · rw [List.count_append, List.count_append, haddr63, hcounts.1,
      (by decide : schemeBytes.count 63 = 0)]
    cases hpf : u.presentFields with
    | nil => simp
    | cons f l => simp
  · rw [List.count_append, List.count_append, haddr38, hcounts.2,
      (by decide : schemeBytes.count 38 = 0)]
    simp

/-- C2 witness: the three-field Uri (amount, label, one extras pair) renders
with one `?` and two `&`. -/
theorem c2_witness :
    (uriThreeFields.renderOut false).count 63
        = min uriThreeFields.presentFields.length 1 ∧
    (uriThreeFields.renderOut false).count 38
        = uriThreeFields.presentFields.length - 1 :=
  c2_separator_counts uriThreeFields false (by decide) (by decide)
    (fun a h => by cases h; decide)
    (fun p h => by cases h; decide)
    (fun p h => by cases h)
    (by decide)

end BitcoinUri
